import Mathlib

/-!
# Verification of the `dataclass` attribute macro (src/src/lib.rs)

A shallow embedding of the source-to-source transformation implemented in
`src/src/lib.rs`: parsing the `name = bool` option list
(`DataclassOptions::from_meta_list`), detecting an existing `serde` attribute
(`has_serde_attribute`, plus the attribute-pushing step of `dataclass`), and
synthesizing the replacement struct definition (`implement_dataclass`).

The `syn`-level input syntax (`Meta`, `Expr`, `Lit`, paths, `DeriveInput`) is
modelled structurally: a path is its list of segments (`get_ident` succeeds
exactly on one-segment paths), and the `panic!` calls of the Rust code are
modelled as `Except.error` values carrying the panic's message shape.
-/

namespace Dataclass

/-- A `syn::Path`, modelled as its list of segment identifiers. -/
def SynPath : Type := List String

instance : DecidableEq SynPath := by
  unfold SynPath
  infer_instance

/-- Model of `syn::Path::get_ident`: `some s` exactly when the path is the single bare
identifier `s`. -/
def SynPath.get_ident : SynPath → Option String
  | [] => none
  | [s] => some s
  | _ :: _ :: _ => none

/-- Model of `syn::Lit`, restricted to the distinction the code makes: a boolean
literal versus any other literal. -/
inductive SynLit where
  | bool (b : Bool)
  | otherLit
deriving DecidableEq

/-- Model of `syn::Expr`, restricted to the distinction the code makes: a literal
expression versus any other expression. -/
inductive SynExpr where
  | lit (l : SynLit)
  | otherExpr
deriving DecidableEq

/-- Model of `syn::Meta`: a bare path, a list form `name(...)`, or a
`name = value` pair (`Meta::NameValue`, with the path on the left). -/
inductive SynMeta where
  | path (p : SynPath)
  | metaList (p : SynPath)
  | nameValue (p : SynPath) (value : SynExpr)
deriving DecidableEq

/-- The ten-flag configuration struct `DataclassOptions` of the source. -/
structure DataclassOptions where
  init : Bool
  repr : Bool
  eq : Bool
  order : Bool
  unsafe_hash : Bool
  frozen : Bool
  match_args : Bool
  kw_only : Bool
  slots : Bool
  weakref_slot : Bool
deriving DecidableEq

/-- The default values set at the top of `DataclassOptions::from_meta_list`
(src/src/lib.rs lines 25-36). -/
def DataclassOptions.defaults : DataclassOptions where
  init := true
  repr := true
  eq := true
  order := false
  unsafe_hash := false
  frozen := false
  match_args := true
  kw_only := false
  slots := false
  weakref_slot := false

/-- The `panic!` messages that `DataclassOptions::from_meta_list` can raise,
as an error type (each carries the name interpolated into the message). -/
inductive ConfigError where
  | expectedBoolValue (name : String)
  | expectedLitValue (name : String)
  | unknownOption (name : String)
  | expectedNameValuePair
deriving DecidableEq

/-- One iteration of the `for meta in meta_list` loop of
`DataclassOptions::from_meta_list` (src/src/lib.rs lines 38-67): a
`Meta::NameValue` whose path is a bare identifier first has its value checked
to be a boolean literal, then the identifier is matched against the ten
recognized option names; a `Meta::NameValue` whose path is not a bare
identifier is skipped (the `if let Some(ident)` has no `else` branch); any
other `Meta` panics. -/
def applyMeta (options : DataclassOptions) : SynMeta → Except ConfigError DataclassOptions
  | .nameValue p value =>
    match p.get_ident with
    | some ident =>
      match value with
      | .lit (.bool b) =>
        match ident with
        | "init" => .ok { options with init := b }
        | "repr" => .ok { options with repr := b }
        | "eq" => .ok { options with eq := b }
        | "order" => .ok { options with order := b }
        | "unsafe_hash" => .ok { options with unsafe_hash := b }
        | "kw_only" => .ok { options with kw_only := b }
        | "slots" => .ok { options with slots := b }
        | "frozen" => .ok { options with frozen := b }
        | "match_args" => .ok { options with match_args := b }
        | "weakref_slot" => .ok { options with weakref_slot := b }
        | _ => .error (.unknownOption ident)
      | .lit _ => .error (.expectedBoolValue ident)
      | _ => .error (.expectedLitValue ident)
    | none => .ok options
  | _ => .error .expectedNameValuePair

/-- Loop of `DataclassOptions::from_meta_list` over the remaining metas,
threading the options record; a panic aborts immediately. -/
def processMetas (options : DataclassOptions) : List SynMeta → Except ConfigError DataclassOptions
  | [] => .ok options
  | m :: rest =>
    match applyMeta options m with
    | .ok options₁ => processMetas options₁ rest
    | .error e => .error e

/-- Embedding of `DataclassOptions::from_meta_list` (src/src/lib.rs lines 24-70): start
from the defaults and fold the option list over them. -/
def from_meta_list (meta_list : List SynMeta) : Except ConfigError DataclassOptions :=
  processMetas DataclassOptions.defaults meta_list

/-! ## The annotated type definition (`syn::DeriveInput`) -/

/-- A `syn::Attribute`, modelled by the result of `attr.parse_args::<Meta>()`
(the only operation the code performs on an existing attribute): `some m`
when the arguments parse as the meta `m`, `none` when parsing fails. -/
structure SynAttribute where
  parseArgs : Option SynMeta
deriving DecidableEq

/-- A named struct field: identifier and type expression (the type is kept
abstract as its source text). -/
structure SynField where
  name : String
  ty : String
deriving DecidableEq

/-- Model of `syn::Fields`: named, unnamed (tuple-style), or unit. -/
inductive SynFields where
  | named (fields : List SynField)
  | unnamed
  | unit
deriving DecidableEq

/-- Model of `syn::Data`: struct, enum, or union. -/
inductive SynData where
  | dataStruct (fields : SynFields)
  | dataEnum
  | dataUnion
deriving DecidableEq

/-- Model of `syn::Visibility` of the input declaration. -/
inductive SynVisibility where
  | public
  | restricted
  | inherited
deriving DecidableEq

/-- Model of `syn::DeriveInput`: the annotated declaration — its attributes,
visibility, name, and body. -/
structure DeriveInput where
  attrs : List SynAttribute
  vis : SynVisibility
  ident : String
  data : SynData
deriving DecidableEq

/-- Embedding of `has_serde_attribute` (src/src/lib.rs lines 73-81): some attribute's
arguments parse as a bare path `Meta::Path` that `is_ident("serde")`. -/
def has_serde_attribute (attrs : List SynAttribute) : Bool :=
  attrs.any fun attr =>
    match attr.parseArgs with
    | some (.path p) => p = ["serde"]
    | _ => false

/-- The `#[cfg_attr(feature = "serde", derive(::serde::Serialize,
::serde::Deserialize))]` attribute pushed by `dataclass`
(src/src/lib.rs lines 94-96). Its argument tokens are not a single `Meta`,
so `parse_args::<Meta>()` on it fails. -/
def serdeMarkerAttr : SynAttribute where
  parseArgs := none

/-- The serde-marker step of `dataclass` (src/src/lib.rs lines 92-97): if no
`serde` attribute is present, push the conditional derive marker onto the
input's attribute list; otherwise leave the input unchanged. -/
def addSerdeMarker (input : DeriveInput) : DeriveInput :=
  if has_serde_attribute input.attrs then input
  else { input with attrs := input.attrs ++ [serdeMarkerAttr] }

/-! ## The emitted replacement definition -/

/-- The two field visibilities the emission can choose between
(src/src/lib.rs lines 213-221): `pub(crate)` when `frozen`, `pub` otherwise. -/
inductive FieldVisibility where
  | fieldPub
  | fieldPubCrate
deriving DecidableEq

/-- One generated `impl` fragment appended to `implementations`
(src/src/lib.rs lines 120-210), tagged by which capability it implements and
recording the struct name and the field list it iterates over, in order.
The constructor fragment additionally records its parameter list (name and
type, in declaration order) and the field-shorthand bindings of its
`Self { ... }` body. -/
inductive Fragment where
  | ctorImpl (structName : String) (params : List SynField) (bindings : List String)
  | debugImpl (structName : String) (fieldNames : List String)
  | eqImpl (structName : String) (fieldNames : List String)
  | ordImpl (structName : String) (fieldNames : List String)
  | hashImpl (structName : String) (fieldNames : List String)
deriving DecidableEq

/-- The panics of `implement_dataclass` (src/src/lib.rs lines 106-112), as an
error type: one for a struct without named fields, one for a non-struct. -/
inductive ShapeError where
  | onlyNamedFields
  | onlyStructs
deriving DecidableEq

/-- The replacement definition assembled by the final `quote!` of
`implement_dataclass` (src/src/lib.rs lines 223-231): the `derive` list, the
passed-through attributes, the (hardcoded) struct visibility, the struct
name, the visibility applied to every field, the field list, and the
generated fragments. -/
structure Expanded where
  derives : List String
  attrs : List SynAttribute
  vis : SynVisibility
  ident : String
  fieldVis : FieldVisibility
  fields : List SynField
  fragments : List Fragment
deriving DecidableEq

/-- Embedding of `implement_dataclass` (src/src/lib.rs lines 102-234): check the shape
(named-field struct, else panic), then assemble the constructor, `Debug`,
`PartialEq`/`Eq`, `PartialOrd`/`Ord` and `Hash` fragments according to the
options, choose the field visibility from `frozen`, and emit the replacement
`pub struct` with a `#[derive(Clone)]`. The `kw_only` branch of the
constructor is kept even though both of its arms are identical, as in the
source. -/
def implement_dataclass (input : DeriveInput) (options : DataclassOptions) :
    Except ShapeError Expanded :=
  match input.data with
  | .dataStruct (.named fields) =>
    let struct_name := input.ident
    let field_names := fields.map SynField.name
    let implementations : List Fragment :=
      (if options.init then
        (if options.kw_only then [.ctorImpl struct_name fields field_names]
         else [.ctorImpl struct_name fields field_names])
       else []) ++
      (if options.repr then [.debugImpl struct_name field_names] else []) ++
      (if options.eq then [.eqImpl struct_name field_names] else []) ++
      (if options.order then [.ordImpl struct_name field_names] else []) ++
      (if options.unsafe_hash then [.hashImpl struct_name field_names] else [])
    .ok
      { derives := ["Clone"]
        attrs := input.attrs
        vis := .public
        ident := struct_name
        fieldVis := if options.frozen then .fieldPubCrate else .fieldPub
        fields := fields
        fragments := implementations }
  | .dataStruct _ => .error .onlyNamedFields
  | _ => .error .onlyStructs

/-- The possible failures of a whole `dataclass` invocation. -/
inductive DataclassError where
  | config (e : ConfigError)
  | shape (e : ShapeError)
deriving DecidableEq

/-- The `dataclass` entry point (src/src/lib.rs lines 84-100): parse the
options, push the serde marker when absent, then run `implement_dataclass`. -/
def dataclass (args : List SynMeta) (input : DeriveInput) :
    Except DataclassError Expanded :=
  match from_meta_list args with
  | .error e => .error (.config e)
  | .ok options =>
    match implement_dataclass (addSerdeMarker input) options with
    | .error e => .error (.shape e)
    | .ok expanded => .ok expanded

/-! ## Classifying option-list entries -/

/-- The ten option names recognized by the `match` in
`DataclassOptions::from_meta_list` (src/src/lib.rs lines 50-61). -/
def recognizedNames : List String :=
  ["init", "repr", "eq", "order", "unsafe_hash", "kw_only", "slots", "frozen",
   "match_args", "weakref_slot"]

/-- Whether a meta is a `name = value` pair for the bare identifier `name`
(the only shape of entry that can set the option `name`). -/
def metaSets (m : SynMeta) (name : String) : Bool :=
  match m with
  | .nameValue p _ => p = [name]
  | _ => false

/-- Whether some entry of the option list is a `name = value` pair for the
bare identifier `name`. -/
def mentionsOption (metas : List SynMeta) (name : String) : Bool :=
  metas.any fun m => metaSets m name

/-- Whether an entry of the option list makes `from_meta_list` panic: any
meta that is not a `name = value` pair, or a `name = value` pair with a bare
identifier on the left whose value is not a boolean literal or whose name is
not recognized. A `name = value` pair whose left side is not a bare
identifier is not rejected (the code skips it). -/
def metaRejected (m : SynMeta) : Bool :=
  match m with
  | .nameValue p value =>
    match p.get_ident with
    | some ident =>
      match value with
      | .lit (.bool _) => !(ident ∈ recognizedNames)
      | _ => true
    | none => false
  | _ => true

/-! ## Semantics of the generated fragments

The generated `impl` blocks iterate over the struct's fields in declaration
order. Their run-time meaning is modelled over an index type `ι` of fields,
with a per-field value type `Ty i` and per-field primitive operations (the
field types' own `==`, `cmp` and `hash`); an instance of the struct is a
dependent function assigning each field a value. -/

/-- Semantics of the generated `PartialEq::eq` body
`#(self.#field_names == other.#field_names)&&*` (src/src/lib.rs line 167):
the conjunction, over the fields in declaration order, of the field types'
own equality on the two instances' field values. -/
def genEqFields {ι : Type} {Ty : ι → Type} (beq : ∀ i, Ty i → Ty i → Bool)
    (x y : ∀ i, Ty i) : List ι → Bool
  | [] => true
  | i :: fs => beq i (x i) (y i) && genEqFields beq x y fs

/-- Semantics of the generated `Ord::cmp` body (src/src/lib.rs lines
186-194): for each field in declaration order, if the field comparison is
`Equal`, continue to the next field, otherwise return that field comparison;
return `Equal` after the last field. -/
def genCmpFields {ι : Type} {Ty : ι → Type} (cmp : ∀ i, Ty i → Ty i → Ordering)
    (x y : ∀ i, Ty i) : List ι → Ordering
  | [] => .eq
  | i :: fs =>
    match cmp i (x i) (y i) with
    | .eq => genCmpFields cmp x y fs
    | _ => cmp i (x i) (y i)

/-- Semantics of the generated `Hash::hash` body
`#(self.#field_names.hash(state);)*` (src/src/lib.rs line 205): thread the
hasher state through the per-field hash contribution of every field, in
declaration order. -/
def genHashFields {ι : Type} {Ty : ι → Type} {σ : Type}
    (hashStep : ∀ i, Ty i → σ → σ) (x : ∀ i, Ty i) (state : σ) : List ι → σ
  | [] => state
  | i :: fs => genHashFields hashStep x (hashStep i (x i) state) fs

/-- Semantics of the generated constructor body `Self { #(#field_names,)* }`
(src/src/lib.rs lines 127-131): the parameters (one per field, in
declaration order) bind the supplied arguments positionally, and each
field-shorthand binding `f` sets the field named `f` to the value of the
in-scope parameter of the same name. The result maps each bound field name
to the looked-up argument. -/
def ctorSem {V : Type} (params : List String) (args : List V)
    (bindings : List String) : List (String × Option V) :=
  bindings.map fun b => (b, (params.zip args).lookup b)

/-! ## Helper lemmas -/

theorem error_ne_ok {ε α : Type} {e : ε} {x : α} {r : Except ε α}
    (h : r = .error e) : r ≠ .ok x := by
  subst h
  exact fun hc => Except.noConfusion hc

theorem get_ident_eq_some {p : SynPath} {s : String}
    (h : SynPath.get_ident p = some s) : p = [s] := by
  rcases p with - | ⟨a, - | ⟨b, t⟩⟩
  · simp [SynPath.get_ident] at h
  · simp [SynPath.get_ident] at h
    rw [h]
  · simp [SynPath.get_ident] at h

/-- Inversion of a successful `implement_dataclass` run: the input was a
named-field struct and the output is exactly the record the final `quote!`
assembles. -/
theorem implement_ok_inv (input : DeriveInput) (options : DataclassOptions)
    (out : Expanded) (h : implement_dataclass input options = .ok out) :
    ∃ fields, input.data = .dataStruct (.named fields) ∧
      out.derives = ["Clone"] ∧ out.vis = .public ∧ out.attrs = input.attrs ∧
      out.ident = input.ident ∧ out.fields = fields ∧
      out.fieldVis = (if options.frozen then .fieldPubCrate else .fieldPub) ∧
      out.fragments =
        (if options.init = true then
          [Fragment.ctorImpl input.ident fields (fields.map SynField.name)] else []) ++
        (if options.repr = true then
          [Fragment.debugImpl input.ident (fields.map SynField.name)] else []) ++
        (if options.eq = true then
          [Fragment.eqImpl input.ident (fields.map SynField.name)] else []) ++
        (if options.order = true then
          [Fragment.ordImpl input.ident (fields.map SynField.name)] else []) ++
        (if options.unsafe_hash = true then
          [Fragment.hashImpl input.ident (fields.map SynField.name)] else []) := by
  obtain ⟨attrs, vis, ident, data⟩ := input
  rcases data with fs | - | -
  · rcases fs with fields | - | -
    · refine ⟨fields, rfl, ?_⟩
      unfold implement_dataclass at h
      injection h with h
      subst h
      refine ⟨rfl, rfl, rfl, rfl, rfl, rfl, ?_⟩
      simp [ite_self]
    · exact absurd h (error_ne_ok rfl)
    · exact absurd h (error_ne_ok rfl)
  · exact absurd h (error_ne_ok rfl)
  · exact absurd h (error_ne_ok rfl)

/-- Inversion of a successful `dataclass` run into its two stages. -/
theorem dataclass_ok_inv (args : List SynMeta) (input : DeriveInput)
    (out : Expanded) (h : dataclass args input = .ok out) :
    ∃ options, from_meta_list args = .ok options ∧
      implement_dataclass (addSerdeMarker input) options = .ok out := by
  unfold dataclass at h
  split at h
  · exact absurd h (error_ne_ok rfl)
  next options hopts =>
    split at h
    · exact absurd h (error_ne_ok rfl)
    next expanded hexp =>
      injection h with h
      subst h
      exact ⟨options, hopts, hexp⟩

/-- A successful loop iteration leaves every option whose name the processed
meta does not carry unchanged. -/
theorem applyMeta_unmentioned (acc acc' : DataclassOptions) (m : SynMeta)
    (h : applyMeta acc m = .ok acc') :
    (metaSets m "init" = false → acc'.init = acc.init)
    ∧ (metaSets m "repr" = false → acc'.repr = acc.repr)
    ∧ (metaSets m "eq" = false → acc'.eq = acc.eq)
    ∧ (metaSets m "order" = false → acc'.order = acc.order)
    ∧ (metaSets m "unsafe_hash" = false → acc'.unsafe_hash = acc.unsafe_hash)
    ∧ (metaSets m "frozen" = false → acc'.frozen = acc.frozen)
    ∧ (metaSets m "match_args" = false → acc'.match_args = acc.match_args)
    ∧ (metaSets m "kw_only" = false → acc'.kw_only = acc.kw_only)
    ∧ (metaSets m "slots" = false → acc'.slots = acc.slots)
    ∧ (metaSets m "weakref_slot" = false → acc'.weakref_slot = acc.weakref_slot) := by
  cases m with
  | path p => exact absurd h (error_ne_ok rfl)
  | metaList p => exact absurd h (error_ne_ok rfl)
  | nameValue p v =>
    rcases p with - | ⟨s, - | ⟨s2, t⟩⟩
    · simp only [applyMeta, SynPath.get_ident] at h
      injection h with h
      subst h
      exact ⟨fun _ => rfl, fun _ => rfl, fun _ => rfl, fun _ => rfl, fun _ => rfl,
             fun _ => rfl, fun _ => rfl, fun _ => rfl, fun _ => rfl, fun _ => rfl⟩
    · rcases v with l | -
      · rcases l with b | -
        · simp only [applyMeta, SynPath.get_ident] at h
          split at h <;>
            first
            | exact absurd h (error_ne_ok rfl)
            | (injection h with h; subst h;
               refine ⟨?_, ?_, ?_, ?_, ?_, ?_, ?_, ?_, ?_, ?_⟩ <;> intro hm <;>
                 first | rfl | simp_all [metaSets])
        · exact absurd h (error_ne_ok rfl)
      · exact absurd h (error_ne_ok rfl)
    · simp only [applyMeta, SynPath.get_ident] at h
      injection h with h
      subst h
      exact ⟨fun _ => rfl, fun _ => rfl, fun _ => rfl, fun _ => rfl, fun _ => rfl,
             fun _ => rfl, fun _ => rfl, fun _ => rfl, fun _ => rfl, fun _ => rfl⟩

theorem mentionsOption_cons {m : SynMeta} {rest : List SynMeta} {name : String}
    (h : mentionsOption (m :: rest) name = false) :
    metaSets m name = false ∧ mentionsOption rest name = false := by
  rw [mentionsOption, List.any_cons, Bool.or_eq_false_iff] at h
  exact ⟨h.1, h.2⟩

/-- A successful run of the loop leaves every option never mentioned in the
list at its value in the starting record. -/
theorem processMetas_unmentioned (metas : List SynMeta) :
    ∀ (acc opts : DataclassOptions), processMetas acc metas = .ok opts →
    (mentionsOption metas "init" = false → opts.init = acc.init)
    ∧ (mentionsOption metas "repr" = false → opts.repr = acc.repr)
    ∧ (mentionsOption metas "eq" = false → opts.eq = acc.eq)
    ∧ (mentionsOption metas "order" = false → opts.order = acc.order)
    ∧ (mentionsOption metas "unsafe_hash" = false → opts.unsafe_hash = acc.unsafe_hash)
    ∧ (mentionsOption metas "frozen" = false → opts.frozen = acc.frozen)
    ∧ (mentionsOption metas "match_args" = false → opts.match_args = acc.match_args)
    ∧ (mentionsOption metas "kw_only" = false → opts.kw_only = acc.kw_only)
    ∧ (mentionsOption metas "slots" = false → opts.slots = acc.slots)
    ∧ (mentionsOption metas "weakref_slot" = false → opts.weakref_slot = acc.weakref_slot) := by
  induction metas with
  | nil =>
    intro acc opts h
    injection h with h
    subst h
    exact ⟨fun _ => rfl, fun _ => rfl, fun _ => rfl, fun _ => rfl, fun _ => rfl,
           fun _ => rfl, fun _ => rfl, fun _ => rfl, fun _ => rfl, fun _ => rfl⟩
  | cons m rest ih =>
    intro acc opts h
    cases happ : applyMeta acc m with
    | error e =>
      rw [processMetas, happ] at h
      exact absurd h (error_ne_ok rfl)
    | ok acc₁ =>
      rw [processMetas, happ] at h
      have ha := applyMeta_unmentioned acc acc₁ m happ
      have hr := ih acc₁ opts h
      refine ⟨fun hm => ?_, fun hm => ?_, fun hm => ?_, fun hm => ?_, fun hm => ?_,
              fun hm => ?_, fun hm => ?_, fun hm => ?_, fun hm => ?_, fun hm => ?_⟩ <;>
        obtain ⟨hm₁, hm₂⟩ := mentionsOption_cons hm
      · exact (hr.1 hm₂).trans (ha.1 hm₁)
      · exact (hr.2.1 hm₂).trans (ha.2.1 hm₁)
      · exact (hr.2.2.1 hm₂).trans (ha.2.2.1 hm₁)
      · exact (hr.2.2.2.1 hm₂).trans (ha.2.2.2.1 hm₁)
      · exact (hr.2.2.2.2.1 hm₂).trans (ha.2.2.2.2.1 hm₁)
      · exact (hr.2.2.2.2.2.1 hm₂).trans (ha.2.2.2.2.2.1 hm₁)
      · exact (hr.2.2.2.2.2.2.1 hm₂).trans (ha.2.2.2.2.2.2.1 hm₁)
      · exact (hr.2.2.2.2.2.2.2.1 hm₂).trans (ha.2.2.2.2.2.2.2.1 hm₁)
      · exact (hr.2.2.2.2.2.2.2.2.1 hm₂).trans (ha.2.2.2.2.2.2.2.2.1 hm₁)
      · exact (hr.2.2.2.2.2.2.2.2.2 hm₂).trans (ha.2.2.2.2.2.2.2.2.2 hm₁)

/-- A bare-identifier pair with a boolean literal value whose name is not
among the ten recognized names panics with the message naming it. -/
theorem applyMeta_unknown (acc : DataclassOptions) (ident : String) (b : Bool)
    (h : ident ∉ recognizedNames) :
    applyMeta acc (.nameValue [ident] (.lit (.bool b))) = .error (.unknownOption ident) := by
  simp only [applyMeta, SynPath.get_ident]
  split <;> simp_all [recognizedNames]

/-- A meta the classifier rejects makes the loop iteration panic, whatever
the accumulated options are. -/
theorem applyMeta_rejected (acc : DataclassOptions) (m : SynMeta)
    (hr : metaRejected m = true) : ∃ e, applyMeta acc m = .error e := by
  cases m with
  | path p => exact ⟨_, rfl⟩
  | metaList p => exact ⟨_, rfl⟩
  | nameValue p v =>
    rcases p with - | ⟨s, - | ⟨s2, t⟩⟩
    · simp [metaRejected, SynPath.get_ident] at hr
    · rcases v with l | -
      · rcases l with b | -
        · simp [metaRejected, SynPath.get_ident] at hr
          exact ⟨_, applyMeta_unknown acc s b hr⟩
        · exact ⟨_, rfl⟩
      · exact ⟨_, rfl⟩
    · simp [metaRejected, SynPath.get_ident] at hr

/-- If any entry of the list is rejected, the whole loop panics. -/
theorem processMetas_rejected (metas : List SynMeta) :
    ∀ acc, (∃ m ∈ metas, metaRejected m = true) →
      ∃ e, processMetas acc metas = .error e := by
  induction metas with
  | nil =>
    intro acc h
    simp at h
  | cons m rest ih =>
    intro acc h
    cases happ : applyMeta acc m with
    | error e => exact ⟨e, by rw [processMetas, happ]⟩
    | ok acc₁ =>
      obtain ⟨m₀, hmem, hrej⟩ := h
      rcases List.mem_cons.mp hmem with h₀ | h₀
      · subst h₀
        obtain ⟨e, he⟩ := applyMeta_rejected acc m₀ hrej
        rw [he] at happ
        exact Except.noConfusion happ
      · obtain ⟨e, he⟩ := ih acc₁ ⟨m₀, h₀, hrej⟩
        exact ⟨e, by rw [processMetas, happ]; exact he⟩

/-- The generated equality body is the conjunction of the per-field
equalities over the listed fields. -/
theorem genEqFields_eq_true_iff {ι : Type} {Ty : ι → Type}
    (beq : ∀ i, Ty i → Ty i → Bool) (x y : ∀ i, Ty i) (fs : List ι) :
    genEqFields beq x y fs = true ↔ ∀ i ∈ fs, beq i (x i) (y i) = true := by
  induction fs with
  | nil => simp [genEqFields]
  | cons i rest ih => simp [genEqFields, ih]

/-- The first listed field whose comparison is not `Equal` determines the
result of the generated comparison body. -/
theorem genCmpFields_firstDiff {ι : Type} {Ty : ι → Type}
    (cmp : ∀ i, Ty i → Ty i → Ordering) (x y : ∀ i, Ty i)
    (pre : List ι) (k : ι) (post : List ι)
    (hpre : ∀ j ∈ pre, cmp j (x j) (y j) = .eq)
    (hk : cmp k (x k) (y k) ≠ .eq) :
    genCmpFields cmp x y (pre ++ k :: post) = cmp k (x k) (y k) := by
  induction pre with
  | nil =>
    rw [List.nil_append]
    cases hc : cmp k (x k) (y k) with
    | lt => simp only [genCmpFields, hc]
    | eq => exact absurd hc hk
    | gt => simp only [genCmpFields, hc]
  | cons j pre' ih =>
    have hj : cmp j (x j) (y j) = .eq := hpre j (List.mem_cons_self j pre')
    simp only [List.cons_append, genCmpFields, hj]
    exact ih fun i hi => hpre i (List.mem_cons_of_mem j hi)

/-- If every listed field comparison is `Equal`, the generated comparison
body returns `Equal`. -/
theorem genCmpFields_allEq {ι : Type} {Ty : ι → Type}
    (cmp : ∀ i, Ty i → Ty i → Ordering) (x y : ∀ i, Ty i) (fs : List ι)
    (hall : ∀ i ∈ fs, cmp i (x i) (y i) = .eq) :
    genCmpFields cmp x y fs = .eq := by
  induction fs with
  | nil => rfl
  | cons i rest ih =>
    have hi := hall i (List.mem_cons_self i rest)
    simp only [genCmpFields, hi]
    exact ih fun j hj => hall j (List.mem_cons_of_mem i hj)

/-- Instances whose listed fields are pairwise `beq`-equal hash to the same
state, provided equal field values contribute equally to the hash. -/
theorem genHashFields_congr {ι : Type} {Ty : ι → Type} {σ : Type}
    (beq : ∀ i, Ty i → Ty i → Bool) (hashStep : ∀ i, Ty i → σ → σ)
    (x y : ∀ i, Ty i) (fs : List ι)
    (hcompat : ∀ i (a b : Ty i) (st : σ),
      beq i a b = true → hashStep i a st = hashStep i b st)
    (heq : genEqFields beq x y fs = true) :
    ∀ s : σ, genHashFields hashStep x s fs = genHashFields hashStep y s fs := by
  induction fs with
  | nil => intro s; rfl
  | cons i rest ih =>
    simp only [genEqFields, Bool.and_eq_true] at heq
    intro s
    simp only [genHashFields]
    rw [hcompat i (x i) (y i) s heq.1]
    exact ih heq.2 (hashStep i (y i) s)

/-- The constructor body binds every field, in declaration order, to the
same-position argument, whenever the parameter names are distinct and the
argument list matches the parameter list in length. -/
theorem ctorSem_params {V : Type} (params : List String) (args : List V)
    (hnd : params.Nodup) (hlen : args.length = params.length) :
    ctorSem params args params = (params.zip args).map fun pa => (pa.1, some pa.2) := by
  induction params generalizing args with
  | nil =>
    cases args with
    | nil => rfl
    | cons a as => simp at hlen
  | cons p ps ih =>
    cases args with
    | nil => simp at hlen
    | cons a as =>
      obtain ⟨hp, hps⟩ := List.nodup_cons.mp hnd
      have hlen' : as.length = ps.length := by simpa using hlen
      have hhead : List.lookup p ((p, a) :: ps.zip as) = some a := by
        simp [List.lookup]
      have htail : (ps.map fun b => (b, List.lookup b ((p, a) :: ps.zip as)))
          = ctorSem ps as ps := by
        apply List.map_congr_left
        intro b hb
        have hbp : (b == p) = false := beq_eq_false_iff_ne.mpr fun hc => hp (hc ▸ hb)
        simp [List.lookup, hbp, ctorSem]
      show (p, List.lookup p ((p, a) :: ps.zip as)) ::
            (ps.map fun b => (b, List.lookup b ((p, a) :: ps.zip as)))
          = (p, some a) :: ((ps.zip as).map fun pa => (pa.1, some pa.2))
      rw [hhead, htail, ih as hps hlen']

/-- Which generated fragments a successful `implement_dataclass` run emits:
the constructor iff `init`, equality iff `eq`, ordering iff `order`, hash
iff `unsafe_hash`, always over the declaration-ordered field list. -/
theorem mem_fragments_iff (input : DeriveInput) (options : DataclassOptions)
    (fields : List SynField) (out : Expanded)
    (hdata : input.data = .dataStruct (.named fields))
    (h : implement_dataclass input options = .ok out) :
    ((Fragment.ctorImpl input.ident fields (fields.map SynField.name) ∈ out.fragments)
        ↔ options.init = true)
    ∧ ((Fragment.eqImpl input.ident (fields.map SynField.name) ∈ out.fragments)
        ↔ options.eq = true)
    ∧ ((Fragment.ordImpl input.ident (fields.map SynField.name) ∈ out.fragments)
        ↔ options.order = true)
    ∧ ((Fragment.hashImpl input.ident (fields.map SynField.name) ∈ out.fragments)
        ↔ options.unsafe_hash = true) := by
  obtain ⟨fields', hdata', -, -, -, -, -, -, hfr⟩ := implement_ok_inv _ _ _ h
  rw [hdata] at hdata'
  injection hdata' with hdata'
  injection hdata' with hdata'
  subst hdata'
  rw [hfr]
  cases hi : options.init <;> cases hr : options.repr <;> cases he : options.eq <;>
    cases ho : options.order <;> cases hu : options.unsafe_hash <;> simp_all

/-! ## Sample inputs used by witnesses -/

/-- An option list setting all ten recognized options to `false`. -/
def allFalseArgs : List SynMeta :=
  [.nameValue ["init"] (.lit (.bool false)), .nameValue ["repr"] (.lit (.bool false)),
   .nameValue ["eq"] (.lit (.bool false)), .nameValue ["order"] (.lit (.bool false)),
   .nameValue ["unsafe_hash"] (.lit (.bool false)), .nameValue ["frozen"] (.lit (.bool false)),
   .nameValue ["match_args"] (.lit (.bool false)), .nameValue ["kw_only"] (.lit (.bool false)),
   .nameValue ["slots"] (.lit (.bool false)), .nameValue ["weakref_slot"] (.lit (.bool false))]

/-- The field list of `samplePoint`, in declaration order. -/
def sampleFields : List SynField := [⟨"x", "i32"⟩, ⟨"y", "i32"⟩]

/-- A two-field named struct with no attributes and inherited visibility. -/
def samplePoint : DeriveInput :=
  ⟨[], .inherited, "Point", .dataStruct (.named sampleFields)⟩

/-- The defaults with `order` additionally enabled. -/
def orderOptions : DataclassOptions :=
  ⟨true, true, true, true, false, false, true, false, false, false⟩

/-- The defaults with `unsafe_hash` additionally enabled. -/
def hashOptions : DataclassOptions :=
  ⟨true, true, true, false, true, false, true, false, false, false⟩

/-! ## Claims -/

/-- C7: for every annotated type that is not a product type with exclusively
named fields (tuple-style struct, unit struct, enum, or union) and every
configuration, `implement_dataclass` fails with a fatal shape error and
emits no replacement definition. -/
theorem unsupported_shape_aborts (input : DeriveInput) (options : DataclassOptions)
    (h : ∀ fields, input.data ≠ SynData.dataStruct (.named fields)) :
    (∃ e, implement_dataclass input options = .error e)
    ∧ ∀ out, implement_dataclass input options ≠ .ok out := by
  obtain ⟨attrs, vis, ident, data⟩ := input
  rcases data with fs | - | -
  · rcases fs with fields | - | -
    · exact absurd rfl (h fields)
    · exact ⟨⟨.onlyNamedFields, rfl⟩, fun out => error_ne_ok rfl⟩
    · exact ⟨⟨.onlyNamedFields, rfl⟩, fun out => error_ne_ok rfl⟩
  · exact ⟨⟨.onlyStructs, rfl⟩, fun out => error_ne_ok rfl⟩
  · exact ⟨⟨.onlyStructs, rfl⟩, fun out => error_ne_ok rfl⟩

/-- Witness for C7 at a concrete enum input. -/
theorem unsupported_shape_aborts_witness :
    (∀ fields, (⟨[], .public, "NotAStruct", .dataEnum⟩ : DeriveInput).data
        ≠ SynData.dataStruct (.named fields))
    ∧ ((∃ e, implement_dataclass ⟨[], .public, "NotAStruct", .dataEnum⟩
          DataclassOptions.defaults = .error e)
       ∧ ∀ out, implement_dataclass ⟨[], .public, "NotAStruct", .dataEnum⟩
          DataclassOptions.defaults ≠ .ok out) :=
  ⟨fun _ h => SynData.noConfusion h,
   unsupported_shape_aborts _ _ (fun _ h => SynData.noConfusion h)⟩

/-- C8: the serde-marker step appends exactly one conditional
serialization-derivation marker to the attribute list iff the serde marker
is not already present, produces no change to the attribute list iff it is
present, and in either case leaves the name, visibility and body of the
definition unchanged. -/
theorem serde_marker_step (input : DeriveInput) :
    ((addSerdeMarker input).attrs = input.attrs ++ [serdeMarkerAttr]
      ↔ has_serde_attribute input.attrs = false)
    ∧ ((addSerdeMarker input).attrs = input.attrs
      ↔ has_serde_attribute input.attrs = true)
    ∧ (addSerdeMarker input).ident = input.ident
    ∧ (addSerdeMarker input).vis = input.vis
    ∧ (addSerdeMarker input).data = input.data := by
  have hne : input.attrs ≠ input.attrs ++ [serdeMarkerAttr] := by
    intro hc
    have hlen := congrArg List.length hc
    simp at hlen
  cases hb : has_serde_attribute input.attrs with
  | false =>
    rw [addSerdeMarker, if_neg (by simp [hb])]
    exact ⟨⟨fun _ => rfl, fun _ => rfl⟩,
           ⟨fun hc => absurd hc.symm hne, fun hc => Bool.noConfusion hc⟩, rfl, rfl, rfl⟩
  | true =>
    rw [addSerdeMarker, if_pos hb]
    exact ⟨⟨fun hc => absurd hc hne, fun hc => Bool.noConfusion hc⟩,
           ⟨fun _ => rfl, fun _ => rfl⟩, rfl, rfl, rfl⟩

/-- C9: every accepted invocation, whatever the configuration (including one
with all ten options set to false), emits the implicit duplication
capability `#[derive(Clone)]` on the replacement struct. -/
theorem clone_always_derived (args : List SynMeta) (input : DeriveInput)
    (out : Expanded) (h : dataclass args input = .ok out) :
    "Clone" ∈ out.derives := by
  obtain ⟨options, -, himp⟩ := dataclass_ok_inv args input out h
  obtain ⟨fields, -, hder, -⟩ := implement_ok_inv _ _ _ himp
  rw [hder]
  exact List.mem_singleton.mpr rfl

/-- Witness for C9: a configuration with all ten options `false` still
derives `Clone`. -/
theorem clone_always_derived_witness :
    dataclass allFalseArgs samplePoint =
      .ok ⟨["Clone"], [serdeMarkerAttr], .public, "Point", .fieldPub,
           [⟨"x", "i32"⟩, ⟨"y", "i32"⟩], []⟩
    ∧ "Clone" ∈ (⟨["Clone"], [serdeMarkerAttr], .public, "Point", .fieldPub,
           [⟨"x", "i32"⟩, ⟨"y", "i32"⟩], []⟩ : Expanded).derives :=
  ⟨rfl, clone_always_derived allFalseArgs samplePoint _ rfl⟩

/-- C10: the replacement definition is always declared with `pub`
visibility, regardless of the visibility the input declaration carried. -/
theorem emitted_struct_is_public (args : List SynMeta) (input : DeriveInput)
    (out : Expanded) (h : dataclass args input = .ok out) :
    out.vis = SynVisibility.public := by
  obtain ⟨options, -, himp⟩ := dataclass_ok_inv args input out h
  obtain ⟨fields, -, -, hvis, -⟩ := implement_ok_inv _ _ _ himp
  exact hvis

/-- Witness for C10: a `pub(in ...)`-restricted input comes out `pub`. -/
theorem emitted_struct_is_public_witness :
    (⟨[], .restricted, "Q", .dataStruct (.named [⟨"a", "u8"⟩])⟩ : DeriveInput).vis
      ≠ SynVisibility.public
    ∧ dataclass [] ⟨[], .restricted, "Q", .dataStruct (.named [⟨"a", "u8"⟩])⟩ =
        .ok ⟨["Clone"], [serdeMarkerAttr], .public, "Q", .fieldPub, [⟨"a", "u8"⟩],
             [.ctorImpl "Q" [⟨"a", "u8"⟩] ["a"], .debugImpl "Q" ["a"], .eqImpl "Q" ["a"]]⟩
    ∧ (⟨["Clone"], [serdeMarkerAttr], .public, "Q", .fieldPub, [⟨"a", "u8"⟩],
             [.ctorImpl "Q" [⟨"a", "u8"⟩] ["a"], .debugImpl "Q" ["a"], .eqImpl "Q" ["a"]]⟩ :
        Expanded).vis = SynVisibility.public :=
  ⟨fun h => SynVisibility.noConfusion h, rfl,
   emitted_struct_is_public [] ⟨[], .restricted, "Q", .dataStruct (.named [⟨"a", "u8"⟩])⟩ _ rfl⟩

/-- C5: the empty option list parses to the documented defaults — `init`,
`repr`, `eq` and `match_args` true, `order`, `unsafe_hash`, `frozen`,
`kw_only`, `slots` and `weakref_slot` false — and any option never mentioned
in a (possibly non-empty) list keeps its default in the parsed
configuration. -/
theorem defaults_retained :
    from_meta_list [] =
      .ok ⟨true, true, true, false, false, false, true, false, false, false⟩
    ∧ ∀ (metas : List SynMeta) (opts : DataclassOptions),
        from_meta_list metas = .ok opts →
        (mentionsOption metas "init" = false → opts.init = true)
        ∧ (mentionsOption metas "repr" = false → opts.repr = true)
        ∧ (mentionsOption metas "eq" = false → opts.eq = true)
        ∧ (mentionsOption metas "order" = false → opts.order = false)
        ∧ (mentionsOption metas "unsafe_hash" = false → opts.unsafe_hash = false)
        ∧ (mentionsOption metas "frozen" = false → opts.frozen = false)
        ∧ (mentionsOption metas "match_args" = false → opts.match_args = true)
        ∧ (mentionsOption metas "kw_only" = false → opts.kw_only = false)
        ∧ (mentionsOption metas "slots" = false → opts.slots = false)
        ∧ (mentionsOption metas "weakref_slot" = false → opts.weakref_slot = false) :=
  ⟨rfl, fun metas opts h => processMetas_unmentioned metas DataclassOptions.defaults opts h⟩

/-- Witness for C5: a list setting only `order` leaves `init` (and its
friends) at their defaults. -/
theorem defaults_retained_witness :
    mentionsOption [SynMeta.nameValue ["order"] (SynExpr.lit (SynLit.bool true))] "init" = false
    ∧ (⟨true, true, true, true, false, false, true, false, false, false⟩ :
        DataclassOptions).init = true :=
  ⟨rfl,
   (defaults_retained.2 [SynMeta.nameValue ["order"] (SynExpr.lit (SynLit.bool true))]
      ⟨true, true, true, true, false, false, true, false, false, false⟩ rfl).1 rfl⟩

/-- C6 counterexample: a `name = value` pair whose left side is the
two-segment path `serde::rename` — not a bare identifier — does not make
parsing fail: the singleton list containing it parses successfully (the pair
is silently ignored). -/
theorem non_ident_pair_is_ignored :
    SynPath.get_ident ["serde", "rename"] = none
    ∧ from_meta_list [.nameValue ["serde", "rename"] (.lit (.bool true))]
        = .ok ⟨true, true, true, false, false, false, true, false, false, false⟩ :=
  ⟨rfl, rfl⟩

/-- C6 (amended): parsing fails if some entry is not a `name = value` pair,
or is a bare-identifier pair whose value is not a boolean literal, or a
bare-identifier boolean pair whose name is not among the ten recognized
names; the panic names the offending option where one exists. A pair whose
left side is not a bare identifier does not fail — it is silently ignored
and leaves the configuration unchanged. -/
theorem option_list_rejection :
    (∀ metas, (∃ m ∈ metas, metaRejected m = true) →
      ∃ e, from_meta_list metas = .error e)
    ∧ (∀ (acc : DataclassOptions) (p : SynPath),
        applyMeta acc (.path p) = .error .expectedNameValuePair)
    ∧ (∀ (acc : DataclassOptions) (p : SynPath),
        applyMeta acc (.metaList p) = .error .expectedNameValuePair)
    ∧ (∀ (acc : DataclassOptions) (ident : String),
        applyMeta acc (.nameValue [ident] (.lit .otherLit))
          = .error (.expectedBoolValue ident))
    ∧ (∀ (acc : DataclassOptions) (ident : String),
        applyMeta acc (.nameValue [ident] .otherExpr)
          = .error (.expectedLitValue ident))
    ∧ (∀ (acc : DataclassOptions) (ident : String) (b : Bool),
        ident ∉ recognizedNames →
          applyMeta acc (.nameValue [ident] (.lit (.bool b)))
            = .error (.unknownOption ident))
    ∧ (∀ (acc : DataclassOptions) (p : SynPath) (v : SynExpr),
        SynPath.get_ident p = none → applyMeta acc (.nameValue p v) = .ok acc) :=
  ⟨fun metas h => processMetas_rejected metas DataclassOptions.defaults h,
   fun _ _ => rfl,
   fun _ _ => rfl,
   fun _ _ => rfl,
   fun _ _ => rfl,
   fun acc ident b h => applyMeta_unknown acc ident b h,
   fun acc p v h => by
     simp only [applyMeta]
     rw [h]⟩

/-- Witness for C6 (amended) at concrete inputs: `foo = true` fails, and a
non-bare-identifier pair is ignored. -/
theorem option_list_rejection_witness :
    (∃ m ∈ [SynMeta.nameValue ["foo"] (SynExpr.lit (SynLit.bool true))],
      metaRejected m = true)
    ∧ (∃ e, from_meta_list [SynMeta.nameValue ["foo"] (SynExpr.lit (SynLit.bool true))]
        = .error e)
    ∧ "foo" ∉ recognizedNames
    ∧ applyMeta DataclassOptions.defaults (.nameValue ["foo"] (.lit (.bool true)))
        = .error (.unknownOption "foo")
    ∧ SynPath.get_ident ["a", "b"] = none
    ∧ applyMeta DataclassOptions.defaults (.nameValue ["a", "b"] (.lit (.bool true)))
        = .ok DataclassOptions.defaults :=
  ⟨by decide,
   option_list_rejection.1 _ (by decide),
   by decide,
   option_list_rejection.2.2.2.2.2.1 DataclassOptions.defaults "foo" true (by decide),
   rfl,
   option_list_rejection.2.2.2.2.2.2 DataclassOptions.defaults ["a", "b"]
     (.lit (.bool true)) rfl⟩

/-- C1: for every named-field struct and configuration, the constructor
fragment — one parameter per field in declaration order, the body binding
each field to the same-named parameter — is emitted iff `init` is true, and
the constructed instance has each field equal to the corresponding supplied
argument, in declaration order. -/
theorem ctor_fragment_correct :
    (∀ (input : DeriveInput) (options : DataclassOptions) (fields : List SynField)
       (out : Expanded),
      input.data = .dataStruct (.named fields) →
      implement_dataclass input options = .ok out →
      ((Fragment.ctorImpl input.ident fields (fields.map SynField.name) ∈ out.fragments)
        ↔ options.init = true))
    ∧ (∀ {V : Type} (params : List String) (args : List V),
        params.Nodup → args.length = params.length →
        ctorSem params args params = (params.zip args).map fun pa => (pa.1, some pa.2)) :=
  ⟨fun input options fields out hdata h => (mem_fragments_iff input options fields out hdata h).1,
   fun params args hnd hlen => ctorSem_params params args hnd hlen⟩

/-- Witness for C1 at a concrete two-field struct and concrete arguments. -/
theorem ctor_fragment_correct_witness :
    ((Fragment.ctorImpl "Point" sampleFields ["x", "y"] ∈
        (⟨["Clone"], [], .public, "Point", .fieldPub, sampleFields,
          [.ctorImpl "Point" sampleFields ["x", "y"], .debugImpl "Point" ["x", "y"],
           .eqImpl "Point" ["x", "y"]]⟩ : Expanded).fragments)
      ↔ DataclassOptions.defaults.init = true)
    ∧ (["x", "y"].Nodup ∧ ([(37 : Nat), 42]).length = ["x", "y"].length)
    ∧ ctorSem ["x", "y"] [(37 : Nat), 42] ["x", "y"]
        = [("x", some 37), ("y", some 42)] :=
  ⟨ctor_fragment_correct.1 samplePoint DataclassOptions.defaults sampleFields _ rfl rfl,
   ⟨by decide, rfl⟩,
   (ctor_fragment_correct.2 ["x", "y"] [(37 : Nat), 42] (by decide) rfl).trans rfl⟩

/-- C2: when `eq` is enabled the equality fragment over the
declaration-ordered fields is generated; the generated equality holds
between two instances iff every corresponding field pair compares equal,
and it is reflexive, symmetric, and transitive for arbitrary instances
whenever every field's own equality is. -/
theorem eq_fragment_correct :
    (∀ (input : DeriveInput) (options : DataclassOptions) (fields : List SynField)
       (out : Expanded),
      input.data = .dataStruct (.named fields) →
      implement_dataclass input options = .ok out →
      ((Fragment.eqImpl input.ident (fields.map SynField.name) ∈ out.fragments)
        ↔ options.eq = true))
    ∧ (∀ {ι : Type} {Ty : ι → Type} (beq : ∀ i, Ty i → Ty i → Bool)
        (x y : ∀ i, Ty i) (fs : List ι),
        genEqFields beq x y fs = true ↔ ∀ i ∈ fs, beq i (x i) (y i) = true)
    ∧ (∀ {ι : Type} {Ty : ι → Type} (beq : ∀ i, Ty i → Ty i → Bool)
        (x : ∀ i, Ty i) (fs : List ι),
        (∀ i (a : Ty i), beq i a a = true) → genEqFields beq x x fs = true)
    ∧ (∀ {ι : Type} {Ty : ι → Type} (beq : ∀ i, Ty i → Ty i → Bool)
        (x y : ∀ i, Ty i) (fs : List ι),
        (∀ i (a b : Ty i), beq i a b = true → beq i b a = true) →
        genEqFields beq x y fs = true → genEqFields beq y x fs = true)
    ∧ (∀ {ι : Type} {Ty : ι → Type} (beq : ∀ i, Ty i → Ty i → Bool)
        (x y z : ∀ i, Ty i) (fs : List ι),
        (∀ i (a b c : Ty i), beq i a b = true → beq i b c = true → beq i a c = true) →
        genEqFields beq x y fs = true → genEqFields beq y z fs = true →
        genEqFields beq x z fs = true) := by
  refine ⟨fun input options fields out hdata h =>
      (mem_fragments_iff input options fields out hdata h).2.1,
    fun beq x y fs => genEqFields_eq_true_iff beq x y fs,
    fun beq x fs hrefl => (genEqFields_eq_true_iff beq x x fs).mpr fun i _ => hrefl i (x i),
    fun beq x y fs hsymm hxy => ?_,
    fun beq x y z fs htrans hxy hyz => ?_⟩
  · exact (genEqFields_eq_true_iff beq y x fs).mpr fun i hi =>
      hsymm i (x i) (y i) ((genEqFields_eq_true_iff beq x y fs).mp hxy i hi)
  · exact (genEqFields_eq_true_iff beq x z fs).mpr fun i hi =>
      htrans i (x i) (y i) (z i) ((genEqFields_eq_true_iff beq x y fs).mp hxy i hi)
        ((genEqFields_eq_true_iff beq y z fs).mp hyz i hi)

/-- Witness for C2: the default configuration generates the equality
fragment for the sample struct, and the equivalence laws hold at concrete
boolean-valued instances. -/
theorem eq_fragment_correct_witness :
    ((Fragment.eqImpl "Point" ["x", "y"] ∈
        (⟨["Clone"], [], .public, "Point", .fieldPub, sampleFields,
          [.ctorImpl "Point" sampleFields ["x", "y"], .debugImpl "Point" ["x", "y"],
           .eqImpl "Point" ["x", "y"]]⟩ : Expanded).fragments)
      ↔ DataclassOptions.defaults.eq = true)
    ∧ genEqFields (fun _ : Bool => (· == · : Bool → Bool → Bool))
        (fun _ => true) (fun _ => true) [true] = true
    ∧ genEqFields (fun _ : Bool => (· == · : Bool → Bool → Bool))
        (fun i => i) (fun _ => true) [true] = true
    ∧ genEqFields (fun _ : Bool => (· == · : Bool → Bool → Bool))
        (fun _ => true) (fun _ => true) [true] = true :=
  ⟨eq_fragment_correct.1 samplePoint DataclassOptions.defaults sampleFields _ rfl rfl,
   eq_fragment_correct.2.2.1 (fun _ : Bool => (· == · : Bool → Bool → Bool))
     (fun _ => true) [true] (by decide),
   eq_fragment_correct.2.2.2.1 (fun _ : Bool => (· == · : Bool → Bool → Bool))
     (fun _ => true) (fun i => i) [true] (by decide) (by decide),
   eq_fragment_correct.2.2.2.2 (fun _ : Bool => (· == · : Bool → Bool → Bool))
     (fun _ => true) (fun i => i) (fun _ => true) [true] (by decide) (by decide) (by decide)⟩

/-- C3: when `order` is enabled the ordering fragment over the
declaration-ordered fields is generated; the generated comparison is
lexicographic in declaration order — the first field whose comparison is
non-equal determines the overall result, and if all fields compare equal
the instances compare as equal — and two instances equal under the
generated equality compare as equal, provided field equality implies field
comparison `Equal`. -/
theorem ord_fragment_correct :
    (∀ (input : DeriveInput) (options : DataclassOptions) (fields : List SynField)
       (out : Expanded),
      input.data = .dataStruct (.named fields) →
      implement_dataclass input options = .ok out →
      ((Fragment.ordImpl input.ident (fields.map SynField.name) ∈ out.fragments)
        ↔ options.order = true))
    ∧ (∀ {ι : Type} {Ty : ι → Type} (cmp : ∀ i, Ty i → Ty i → Ordering)
        (x y : ∀ i, Ty i) (pre : List ι) (k : ι) (post : List ι),
        (∀ j ∈ pre, cmp j (x j) (y j) = .eq) → cmp k (x k) (y k) ≠ .eq →
        genCmpFields cmp x y (pre ++ k :: post) = cmp k (x k) (y k))
    ∧ (∀ {ι : Type} {Ty : ι → Type} (cmp : ∀ i, Ty i → Ty i → Ordering)
        (x y : ∀ i, Ty i) (fs : List ι),
        (∀ i ∈ fs, cmp i (x i) (y i) = .eq) → genCmpFields cmp x y fs = .eq)
    ∧ (∀ {ι : Type} {Ty : ι → Type} (beq : ∀ i, Ty i → Ty i → Bool)
        (cmp : ∀ i, Ty i → Ty i → Ordering) (x y : ∀ i, Ty i) (fs : List ι),
        (∀ i (a b : Ty i), beq i a b = true → cmp i a b = .eq) →
        genEqFields beq x y fs = true → genCmpFields cmp x y fs = .eq) :=
  ⟨fun input options fields out hdata h =>
      (mem_fragments_iff input options fields out hdata h).2.2.1,
   fun cmp x y pre k post hpre hk => genCmpFields_firstDiff cmp x y pre k post hpre hk,
   fun cmp x y fs hall => genCmpFields_allEq cmp x y fs hall,
   fun beq cmp x y fs hcons heq => genCmpFields_allEq cmp x y fs fun i hi =>
     hcons i (x i) (y i) ((genEqFields_eq_true_iff beq x y fs).mp heq i hi)⟩

/-- Witness for C3: enabling `order` generates the ordering fragment, and
the lexicographic laws hold at concrete boolean-valued instances (the first
differing field decides; all-equal gives `Equal`; equal instances compare
`Equal`). -/
theorem ord_fragment_correct_witness :
    ((Fragment.ordImpl "Point" ["x", "y"] ∈
        (⟨["Clone"], [], .public, "Point", .fieldPub, sampleFields,
          [.ctorImpl "Point" sampleFields ["x", "y"], .debugImpl "Point" ["x", "y"],
           .eqImpl "Point" ["x", "y"], .ordImpl "Point" ["x", "y"]]⟩ : Expanded).fragments)
      ↔ orderOptions.order = true)
    ∧ genCmpFields (fun _ : Bool => (compare : Bool → Bool → Ordering))
        (fun _ => false) (fun i => i) ([false] ++ true :: []) = Ordering.lt
    ∧ genCmpFields (fun _ : Bool => (compare : Bool → Bool → Ordering))
        (fun i => i) (fun i => i) [false, true] = Ordering.eq
    ∧ genCmpFields (fun _ : Bool => (compare : Bool → Bool → Ordering))
        (fun i => i) (fun i => i) [false, true] = Ordering.eq :=
  ⟨ord_fragment_correct.1 samplePoint orderOptions sampleFields _ rfl rfl,
   (ord_fragment_correct.2.1 (fun _ : Bool => (compare : Bool → Bool → Ordering))
     (fun _ => false) (fun i => i) [false] true [] (by decide) (by decide)).trans rfl,
   ord_fragment_correct.2.2.1 (fun _ : Bool => (compare : Bool → Bool → Ordering))
     (fun i => i) (fun i => i) [false, true] (by decide),
   ord_fragment_correct.2.2.2 (fun _ : Bool => (· == · : Bool → Bool → Bool))
     (fun _ : Bool => (compare : Bool → Bool → Ordering))
     (fun i => i) (fun i => i) [false, true] (by decide) (by decide)⟩

/-- C4: when `unsafe_hash` and `eq` are both enabled, both the hash and
equality fragments are generated, and two instances equal under the
generated equality produce equal combined hash values — the combined hash
folding a per-field contribution for every field in declaration order —
provided equal field values produce equal per-field contributions. -/
theorem hash_fragment_correct :
    (∀ (input : DeriveInput) (options : DataclassOptions) (fields : List SynField)
       (out : Expanded),
      input.data = .dataStruct (.named fields) →
      implement_dataclass input options = .ok out →
      options.unsafe_hash = true → options.eq = true →
      (Fragment.hashImpl input.ident (fields.map SynField.name) ∈ out.fragments)
      ∧ (Fragment.eqImpl input.ident (fields.map SynField.name) ∈ out.fragments))
    ∧ (∀ {ι : Type} {Ty : ι → Type} {σ : Type} (beq : ∀ i, Ty i → Ty i → Bool)
        (hashStep : ∀ i, Ty i → σ → σ) (x y : ∀ i, Ty i) (fs : List ι) (s : σ),
        (∀ i (a b : Ty i) (st : σ),
          beq i a b = true → hashStep i a st = hashStep i b st) →
        genEqFields beq x y fs = true →
        genHashFields hashStep x s fs = genHashFields hashStep y s fs) := by
  refine ⟨fun input options fields out hdata h hu he => ?_,
    fun beq hashStep x y fs s hcompat heq =>
      genHashFields_congr beq hashStep x y fs hcompat heq s⟩
  have hm := mem_fragments_iff input options fields out hdata h
  exact ⟨hm.2.2.2.mpr hu, hm.2.1.mpr he⟩

/-- Witness for C4: enabling `unsafe_hash` with `eq` generates both
fragments, and equal concrete boolean instances hash identically under a
compatible per-field contribution. -/
theorem hash_fragment_correct_witness :
    ((Fragment.hashImpl "Point" ["x", "y"] ∈
        (⟨["Clone"], [], .public, "Point", .fieldPub, sampleFields,
          [.ctorImpl "Point" sampleFields ["x", "y"], .debugImpl "Point" ["x", "y"],
           .eqImpl "Point" ["x", "y"], .hashImpl "Point" ["x", "y"]]⟩ : Expanded).fragments)
      ∧ (Fragment.eqImpl "Point" ["x", "y"] ∈
        (⟨["Clone"], [], .public, "Point", .fieldPub, sampleFields,
          [.ctorImpl "Point" sampleFields ["x", "y"], .debugImpl "Point" ["x", "y"],
           .eqImpl "Point" ["x", "y"], .hashImpl "Point" ["x", "y"]]⟩ : Expanded).fragments))
    ∧ genHashFields (fun _ : Bool => (Bool.xor : Bool → Bool → Bool))
        (fun _ => true) false [true]
      = genHashFields (fun _ : Bool => (Bool.xor : Bool → Bool → Bool))
        (fun i => i) false [true] :=
  ⟨hash_fragment_correct.1 samplePoint hashOptions sampleFields _ rfl rfl rfl rfl,
   hash_fragment_correct.2 (fun _ : Bool => (· == · : Bool → Bool → Bool))
     (fun _ : Bool => (Bool.xor : Bool → Bool → Bool))
     (fun _ => true) (fun i => i) [true] false (by decide) (by decide)⟩

end Dataclass
